import Mathlib

/-!
Verification of the taipy declarative UI-tree builder
(`src/taipy/gui/builder/_element.py`): the element/property model, property
normalization (key rewriting and binding-expression detection), the implicit
nesting mechanism driven by the builder-context stack, and the markup rendering
rules of the `html` (RawMarkup) and `_Control` (Leaf) variants.

Python objects are modelled shallowly: an object is a record carrying its
identity (`oid`, so that the `is` operator becomes `oid` equality), its broad
runtime kind (str / dict / other iterable / non-iterable), an optional
`__name__` attribute (present on classes, functions and enum members), and its
`str(...)` representation.  Python dicts keyed by strings are modelled as
insertion-ordered association lists with the dict update/delete/lookup
operations.  Fallible constructors return `Except`.
-/

namespace TaipyBuilder

/-- Broad runtime kind of a Python value, as distinguished by
`isinstance(value, (str, dict, Iterable))` in `_parse_property`:
`pstr`/`pdict`/`piter` all satisfy that test, `pother` does not. -/
inductive PyKind where
  | pstr
  | pdict
  | piter
  | pother
deriving DecidableEq, Repr

/-- Shallow model of a Python object: `oid` is its identity (the `is`
operator compares `oid`s), `dundername` is the `__name__` attribute when
present (a string on classes, functions and enum members), `strRep` is the
result of `str(value)`. -/
structure PyValue where
  oid : Nat
  kind : PyKind
  dundername : Option String
  strRep : String
deriving DecidableEq, Repr

/-- Result of `_Element._parse_property`: either a string produced by the
normalizer (identity name, binding expression, or `str(value)`), or the
original object passed through unchanged by the
`isinstance(value, (str, dict, Iterable))` branch. -/
inductive PropResult where
  | pstr (s : String)
  | pval (v : PyValue)
deriving DecidableEq, Repr

/-- Reading a `PropResult` as a Python string: a pass-through value reads as a
string exactly when it is a `str` object with that content. -/
def PropResult.eqStr : PropResult → String → Prop
  | .pstr s, t => s = t
  | .pval v, t => v.kind = PyKind.pstr ∧ v.strRep = t

/-- Characters removed by Python `str.strip()` with no argument (the ASCII
whitespace characters; the code only ever strips identifier and literal
source texts). -/
def isStripChar (c : Char) : Bool :=
  c = ' ' || c = '\t' || c = '\n' || c = '\r' || c = '\x0b' || c = '\x0c'

/-- Python `str.strip()`: whitespace removed from both ends. -/
def strStrip (s : String) : String :=
  String.mk (((s.data.dropWhile isStripChar).reverse.dropWhile isStripChar).reverse)

/-- Python truth test `isinstance(value, (str, dict, Iterable))` in
`_parse_property`. -/
def isStrDictOrIterable : PyKind → Bool
  | .pother => false
  | _ => true

/-- Lookup in the `code_arguments` dict (`key in code_arguments` followed by
`code_arguments[key]`).  The stored value is modelled by its `str(...)` form,
which is how `_parse_property` consumes it. -/
def lookupArg (codeArgs : List (String × String)) (key : String) : Option String :=
  (codeArgs.find? (fun p => p.1 = key)).map (fun p => p.2)

/-- Condition of the binding-detection loop in `_parse_property`, for one
entry `(nm, bv)` of `self.__locals`:
`v is value and key in code_arguments and str(code_arguments[key]).strip() == k.strip()`. -/
def bindingMatch (codeArgs : List (String × String)) (key : String)
    (value : PyValue) (nm : String) (bv : PyValue) : Bool :=
  bv.oid = value.oid &&
    match lookupArg codeArgs key with
    | some txt => strStrip txt = strStrip nm
    | none => false

/-- The `for k, v in self.__locals.items():` loop of `_parse_property`: the
first entry satisfying `bindingMatch` wins (dict iteration is in insertion
order). -/
def findBinding (locals : List (String × PyValue)) (codeArgs : List (String × String))
    (key : String) (value : PyValue) : Option String :=
  (locals.find? (fun p => bindingMatch codeArgs key value p.1 p.2)).map (fun p => p.1)

/-- `_Element._parse_property(key, value, code_arguments)`:
1. a value with a `__name__` attribute normalizes to `str(value.__name__)`;
2. otherwise the first local `(k, v)` with `v is value` whose recovered source
   text for this key strips to `k` yields the binding string `"{" + k + "}"`;
3. otherwise `str`/`dict`/`Iterable` values pass through unchanged;
4. otherwise the value is stringified. -/
def parseProperty (locals : List (String × PyValue)) (codeArgs : List (String × String))
    (key : String) (value : PyValue) : PropResult :=
  match value.dundername with
  | some n => .pstr n
  | none =>
    match findBinding locals codeArgs key value with
    | some k => .pstr ("\x7b" ++ k ++ "\x7d")
    | none =>
      if isStrDictOrIterable value.kind then .pval value
      else .pstr value.strRep

/-- Character class of `\w` (and the redundant `\d`) in
`__RE_INDEXED_PROPERTY = re.compile(r"^(.*?)__([\w\d]+)$")`, for the ASCII
identifiers used as property keys. -/
def isWordChar (c : Char) : Bool := c.isAlphanum || c = '_'

/-- Attempt of the `([\w\d]+)$` part of `__RE_INDEXED_PROPERTY` on the text
following a `__` occurrence: the group must be a nonempty run of word
characters reaching the end of the key, where—per `re`'s `$` convention—a
single final newline may sit after the match. -/
def tokenOf (tail : List Char) : Option (List Char) :=
  let core := if tail.getLast? = some '\n' then tail.dropLast else tail
  if core.isEmpty then none
  else if core.all isWordChar then some core else none

/-- Scan of `re.match` with the non-greedy prefix `^(.*?)__`: positions are
tried left to right, and the first `__` occurrence whose remainder satisfies
`tokenOf` (with a newline-free prefix, since `.` does not match a newline)
yields the two groups.  `pre` accumulates the reversed prefix scanned so far. -/
def scanSplit (pre : List Char) : List Char → Option (List Char × List Char)
  | [] => none
  | c :: cs =>
    match c, cs with
    | '_', '_' :: tail =>
      match tokenOf tail with
      | some tok =>
        if pre.all (fun x => x ≠ '\n') then some (pre.reverse, tok)
        else scanSplit (c :: pre) cs
      | none => scanSplit (c :: pre) cs
    | _, _ => scanSplit (c :: pre) cs

/-- `_Element._parse_property_key`: an indexed key `name__index` is rewritten
to `name[index]`, any other key is returned unchanged. -/
def parsePropertyKey (key : String) : String :=
  match scanSplit [] key.data with
  | some (pre, tok) => String.mk pre ++ "[" ++ String.mk tok ++ "]"
  | none => key

example : parsePropertyKey "color__0" = "color[0]" := by decide
example : parsePropertyKey "color" = "color" := by decide
example : parsePropertyKey "a__b__c" = "a[b__c]" := by decide
example : parsePropertyKey "x__" = "x__" := by decide

/-! ### Python string-keyed dicts as insertion-ordered association lists -/

/-- Python `d[k] = v`: replace in place if the key exists, else append. -/
def dictSet : List (String × α) → String → α → List (String × α)
  | [], k, v => [(k, v)]
  | p :: ps, k, v => if p.1 = k then (k, v) :: ps else p :: dictSet ps k v

/-- Python `del d[k]` (keys are unique in a real dict; the first occurrence is
removed). -/
def dictDel : List (String × α) → String → List (String × α)
  | [], _ => []
  | p :: ps, k => if p.1 = k then ps else p :: dictDel ps k

/-- Python `d[k]` / `d.get(k)`. -/
def dictGet : List (String × α) → String → Option α
  | [], _ => none
  | p :: ps, k => if p.1 = k then some p.2 else dictGet ps k

/-- Ordered key list of a dict (Python `d.keys()`). -/
def dictKeys (d : List (String × α)) : List String := d.map (fun p => p.1)

/-- The `_properties` dict: raw entries are the objects passed by the caller
(`.pval`), normalized entries may be parser-created strings (`.pstr`). -/
abbrev PDict := List (String × PropResult)

/-- One iteration of the loop in `_Element._parse_properties`: read the value
at `k`, rewrite an indexed key (deleting the original), store the parsed
value under the (possibly rewritten) key.  The keys iterated over are always
freshly stored raw kwargs values, so the value read is present; a missing key
(which would raise `KeyError`) is modelled as leaving the dict unchanged. -/
def parseOne (locals : List (String × PyValue)) (codeArgs : List (String × String))
    (d : PDict) (k : String) : PDict :=
  match dictGet d k with
  | none => d
  | some v =>
    let k2 := parsePropertyKey k
    let d1 := if k ≠ k2 then dictDel d k else d
    dictSet d1 k2 (parseEntry locals codeArgs k2 v)
where
  /-- Application of `_parse_property` to a stored dict entry.  Entries read
  by the loop are always raw caller objects (`.pval`); an already-normalized
  string entry (never reached from `__init__`/`update`, whose iterated keys
  were all just overwritten with raw values) normalizes to itself, as a plain
  `str` does under rule 3. -/
  parseEntry (locals : List (String × PyValue)) (codeArgs : List (String × String))
      (k : String) : PropResult → PropResult
    | .pval v => parseProperty locals codeArgs k v
    | .pstr s => .pstr s

/-- `_Element._parse_properties(updated_property_list, code_arguments)`: the
listed keys are processed in order over the properties dict. -/
def parseProperties (locals : List (String × PyValue)) (codeArgs : List (String × String))
    (d : PDict) (keys : List String) : PDict :=
  keys.foldl (parseOne locals codeArgs) d

/-! ### Element construction and update -/

/-- State of an `_Element` relevant to property handling: the lexical
snapshot `self.__locals` (captured once, at construction) and the
`self._properties` dict. -/
structure ElementState where
  locals : List (String × PyValue)
  props : PDict
deriving Repr

/-- Python `key.startswith("_")` on an identifier. -/
def startsUnderscore (s : String) : Bool :=
  match s.data with
  | '_' :: _ => true
  | _ => false

/-- The filter applied when capturing `self.__locals`: caller locals whose
names start with an underscore are dropped. -/
def filterLocals (callerLocals : List (String × PyValue)) : List (String × PyValue) :=
  callerLocals.filter (fun p => !startsUnderscore p.1)

/-- Raw kwargs as a dict of unparsed objects. -/
def mkRawDict (kwargs : List (String × PyValue)) : PDict :=
  kwargs.foldl (fun d p => dictSet d p.1 (PropResult.pval p.2)) []

/-- `_Element.__init__`: capture the (filtered) caller locals, seed the
properties with the default property when a positional argument is given and
a default-property name is declared, merge the kwargs in, then normalize
every key using the code arguments recovered from the construction call
site. -/
def elementInit (callerLocals : List (String × PyValue)) (codeArgs : List (String × String))
    (defaultProp : String) (args : List PyValue) (kwargs : List (String × PyValue)) :
    ElementState :=
  let locals := filterLocals callerLocals
  let props0 : PDict :=
    match args with
    | a :: _ => if defaultProp = "" then [] else [(defaultProp, PropResult.pval a)]
    | [] => []
  let props1 := kwargs.foldl (fun d p => dictSet d p.1 (PropResult.pval p.2)) props0
  ⟨locals, parseProperties locals codeArgs props1 (dictKeys props1)⟩

/-- The dict of properties an `update` call touches: the kwargs, plus the
first positional argument stored under the default-property name
(`kwargs[self._DEFAULT_PROPERTY] = args[0]`). -/
def updateDict (defaultProp : String) (args : List PyValue)
    (kwargs : List (String × PyValue)) : PDict :=
  match args with
  | a :: _ => dictSet (mkRawDict kwargs) defaultProp (PropResult.pval a)
  | [] => mkRawDict kwargs

/-- `_Element.update(*args, **kwargs)`: merge the updated properties into the
existing dict and re-run normalization over exactly the updated keys.  The
code arguments come from the update call site, but the lexical snapshot is
the one captured at construction (`self.__locals` is never refreshed). -/
def elementUpdate (st : ElementState) (updateCodeArgs : List (String × String))
    (defaultProp : String) (args : List PyValue) (kwargs : List (String × PyValue)) :
    ElementState :=
  let kd := updateDict defaultProp args kwargs
  let props1 := kd.foldl (fun d p => dictSet d p.1 p.2) st.props
  ⟨st.locals, parseProperties st.locals updateCodeArgs props1 (dictKeys kd)⟩

/-- Modelled from the spec: the claim's reading of `update` (§4.1), under
which the *lexical bindings* as well as the source text are recovered from
the update call site.  Identical to `elementUpdate` except that normalization
runs against the update site's (filtered) locals. -/
def elementUpdateClaimed (st : ElementState) (updateCallerLocals : List (String × PyValue))
    (updateCodeArgs : List (String × String)) (defaultProp : String)
    (args : List PyValue) (kwargs : List (String × PyValue)) : ElementState :=
  let kd := updateDict defaultProp args kwargs
  let props1 := kd.foldl (fun d p => dictSet d p.1 p.2) st.props
  ⟨st.locals,
    parseProperties (filterLocals updateCallerLocals) updateCodeArgs props1 (dictKeys kd)⟩

/-! ### BuilderContext and the construction-time parent assignment

`_BuilderContextManager` lives in `_context_manager.py`, which is not part of
the sources under verification; per the spec (§2, §3: "process-wide stack of
currently open container nodes", "push on scope-enter, pop on scope-exit",
and `peek` returning the topmost container or nothing) it is modelled as a
stack of container ids threaded through an explicit state.  Elements are
identified by allocation order (`nextId`), which models Python object
identity; `childrenOf` maps a container id to its ordered `_children` list. -/

structure Builder where
  stack : List Nat
  childrenOf : Nat → List Nat
  nextId : Nat

/-- Modelled from the spec: `_BuilderContextManager().peek()` — the topmost
open container, if any. -/
def Builder.peek (b : Builder) : Option Nat := b.stack.head?

/-- Modelled from the spec: `_BuilderContextManager().push(self)` on
`_Block.__enter__`. -/
def Builder.push (b : Builder) (c : Nat) : Builder := { b with stack := c :: b.stack }

/-- Modelled from the spec: `_BuilderContextManager().pop()` on
`_Block.__exit__` (a pop without a matching push is a caller usage error; the
balanced scenarios proved below never pop an empty stack). -/
def Builder.pop (b : Builder) : Builder := { b with stack := b.stack.tail }

/-- `_Block.add` for a single element: append to `_children` unless already
present (membership by object identity). -/
def addChild (b : Builder) (c e : Nat) : Builder :=
  let l := b.childrenOf c
  if e ∈ l then b
  else { b with childrenOf := fun d => if d = c then l ++ [e] else b.childrenOf d }

/-- `_Block.add(*elements)`: each element in turn, returning `self`. -/
def blockAdd (b : Builder) (c : Nat) (es : List Nat) : Builder × Nat :=
  (es.foldl (fun acc e => addChild acc c e) b, c)

/-- `_Element.__new__`: allocate the object and register it with the topmost
open container (`parent.add(obj)` when `peek()` is not `None`), before any
`__init__` runs. -/
def construct (b : Builder) : Builder × Nat :=
  let e := b.nextId
  let b1 := { b with nextId := e + 1 }
  match b1.peek with
  | some p => (addChild b1 p e, e)
  | none => (b1, e)

/-- Builder-context operations as they occur in a `with`-based construction
session: opening a container scope, closing the current scope, and
constructing an element. -/
inductive BOp where
  | enter (c : Nat)
  | exitScope
  | construct
deriving DecidableEq, Repr

def applyOp (b : Builder) : BOp → Builder
  | .enter c => b.push c
  | .exitScope => b.pop
  | .construct => (construct b).1

def run (b : Builder) (ops : List BOp) : Builder := ops.foldl applyOp b

/-- Balanced op sequences: every scope entered inside is exited inside. -/
inductive Balanced : List BOp → Prop
  | nil : Balanced []
  | cons_construct {ops : List BOp} : Balanced ops → Balanced (BOp.construct :: ops)
  | wrap {c : Nat} {inner rest : List BOp} : Balanced inner → Balanced rest →
      Balanced (BOp.enter c :: inner ++ BOp.exitScope :: rest)

/-- Well-formedness: every id recorded as a child was allocated earlier than
`nextId`. -/
def wf (b : Builder) : Prop := ∀ c e, e ∈ b.childrenOf c → e < b.nextId

/-! ### The `html` element (RawMarkup) -/

/-- Python truthiness of the first `html` argument (`None` or a string):
`None` and `""` are falsy. -/
def pyTruthy : Option String → Bool
  | none => false
  | some s => s ≠ ""

/-- State of an `html` element set up by `html.__init__`: `_ELEMENT_NAME`
(`args[0] if args[0] else None`) and `_content` (`args[1] if len(args) > 1
else ""`; the content argument is a string in every documented use and is
modelled as such). -/
structure HtmlEl where
  elementName : Option String
  content : String
  props : List (String × PropResult)
deriving Repr

/-- `str(v)` for a stored property value, as used when serializing `html`
attributes. -/
def strOfProp : PropResult → String
  | .pstr s => s
  | .pval v => v.strRep

/-- `html.__init__` after the `_Block`/`_Element` initialization: with no
positional argument it raises `RuntimeError` (the missing html tag name);
otherwise a falsy first argument denotes a text node (`_ELEMENT_NAME = None`)
and the optional second argument is the literal content. -/
def htmlInit (args : List (Option String)) (props : List (String × PropResult)) :
    Except String HtmlEl :=
  match args with
  | [] => Except.error "Missing html tag name."
  | a0 :: rest =>
    Except.ok
      { elementName := if pyTruthy a0 then a0 else none
        content := match rest with | c :: _ => c.getD "" | [] => ""
        props := props }

/-- `"\n".join(child._render(gui) for child in self._children)`. -/
def renderChildren (childrenRendered : List String) : String :=
  String.intercalate "\n" childrenRendered

/-- The attribute string of `html._render`: empty when there are no
properties, otherwise a space followed by space-separated `key="str(value)"`
pairs, emitted verbatim. -/
def htmlAttrs (props : List (String × PropResult)) : String :=
  if props.isEmpty then ""
  else " " ++ String.intercalate " "
    (props.map (fun p => p.1 ++ "=\x22" ++ strOfProp p.2 ++ "\x22"))

/-- `html._render`: with a truthy `_ELEMENT_NAME`, serialize the tag with its
verbatim attributes, content, and rendered children; otherwise return the
literal content only (the children are not serialized). -/
def htmlRender (el : HtmlEl) (childrenRendered : List String) : String :=
  match el.elementName with
  | some n =>
    if n ≠ "" then
      "<" ++ n ++ htmlAttrs el.props ++ ">" ++ el.content
        ++ renderChildren childrenRendered ++ "</" ++ n ++ ">"
    else el.content
  | none => el.content

/-! ### The `_Control` element (Leaf) -/

/-- Python `sub in s` on strings: substring containment. -/
def strContainsAux (sub : List Char) : List Char → Bool
  | [] => sub.isEmpty
  | c :: cs => sub.isPrefixOf (c :: cs) || strContainsAux sub cs

def strContains (s sub : String) : Bool := strContainsAux sub.data s.data

/-- `_Control._render`, given the `(openingFragment, tagName)` pair returned
by the external `_BuilderFactory.create_element`: when the fragment contains
`<tagName` but not `</tagName`, the missing close is synthesized inside the
wrapping `<div>`; otherwise the fragment is wrapped as is. -/
def controlRender (fragment tagName : String) : String :=
  if strContains fragment ("<" ++ tagName) && !strContains fragment ("</" ++ tagName) then
    "<div>" ++ fragment ++ "</" ++ tagName ++ "></div>"
  else
    "<div>" ++ fragment ++ "</div>"

/-! ### Lemmas about binding detection -/

lemma bindingMatch_iff (codeArgs : List (String × String)) (key : String)
    (value : PyValue) (nm : String) (bv : PyValue) :
    bindingMatch codeArgs key value nm bv = true ↔
      bv.oid = value.oid ∧
        ∃ txt, lookupArg codeArgs key = some txt ∧ strStrip txt = strStrip nm := by
  unfold bindingMatch
  cases h : lookupArg codeArgs key with
  | none => simp [h]
  | some txt => simp [h]

/-- C1 : during property value normalization (with no named-identity
attribute on the value, which rule 1 would intercept), the value is rewritten
to a binding-expression string `{name}` for a snapshot entry `(name,
boundValue)` satisfying reference identity with the value and the
stripped-source-text equality, exactly when some such entry exists; the
rewrite is to the name of the first satisfying entry. -/
theorem binding_detection_iff (locals : List (String × PyValue))
    (codeArgs : List (String × String)) (key : String) (value : PyValue)
    (hname : value.dundername = none) :
    (∃ nm, parseProperty locals codeArgs key value = PropResult.pstr ("\x7b" ++ nm ++ "\x7d") ∧
        ∃ bv, (nm, bv) ∈ locals ∧ bv.oid = value.oid ∧
          ∃ txt, lookupArg codeArgs key = some txt ∧ strStrip txt = strStrip nm)
      ↔ (∃ nm bv, (nm, bv) ∈ locals ∧ bv.oid = value.oid ∧
          ∃ txt, lookupArg codeArgs key = some txt ∧ strStrip txt = strStrip nm) := by
  constructor
  · rintro ⟨nm, _, bv, hmem, hoid, htxt⟩
    exact ⟨nm, bv, hmem, hoid, htxt⟩
  · rintro ⟨nm, bv, hmem, hoid, htxt⟩
    have hsome : (locals.find? (fun p => bindingMatch codeArgs key value p.1 p.2)).isSome := by
      refine List.find?_isSome.mpr ⟨(nm, bv), hmem, ?_⟩
      exact (bindingMatch_iff codeArgs key value nm bv).mpr ⟨hoid, htxt⟩
    obtain ⟨q, hq⟩ := Option.isSome_iff_exists.mp hsome
    have hpq := List.find?_some hq
    simp only at hpq
    have hqmem : q ∈ locals := List.mem_of_find?_eq_some hq
    obtain ⟨hqoid, hqtxt⟩ := (bindingMatch_iff codeArgs key value q.1 q.2).mp hpq
    refine ⟨q.1, ?_, q.2, hqmem, hqoid, hqtxt⟩
    unfold parseProperty findBinding
    rw [hname, hq]
    rfl

/-- C1 witness: a variable `x` holding object `V` (no `__name__`), passed as
keyword `label=x`, is normalized to the binding string `{x}`; the literal
`label="hello"` (a distinct string object) stays `"hello"` with no binding. -/
theorem binding_detection_iff_witness :
    (∃ nm, parseProperty [("x", ⟨7, PyKind.pother, none, "V"⟩)] [("label", "x")]
        "label" ⟨7, PyKind.pother, none, "V"⟩ = PropResult.pstr ("\x7b" ++ nm ++ "\x7d") ∧
      ∃ bv, (nm, bv) ∈ [("x", (⟨7, PyKind.pother, none, "V"⟩ : PyValue))] ∧
        bv.oid = (7 : Nat) ∧
        ∃ txt, lookupArg [("label", "x")] "label" = some txt ∧ strStrip txt = strStrip nm)
    ∧ (parseProperty [("x", ⟨7, PyKind.pother, none, "V"⟩)] [("label", "hello")]
        "label" ⟨9, PyKind.pstr, none, "hello"⟩).eqStr "hello" :=
  ⟨(binding_detection_iff [("x", ⟨7, PyKind.pother, none, "V"⟩)] [("label", "x")]
      "label" ⟨7, PyKind.pother, none, "V"⟩ rfl).mpr
    ⟨"x", ⟨7, PyKind.pother, none, "V"⟩, by decide, rfl, "x", rfl, rfl⟩,
   by exact ⟨rfl, rfl⟩⟩

/-- Heads of binding-expression strings. -/
lemma binding_string_head (nm : String) : ("\x7b" ++ nm ++ "\x7d").data.head? = some '{' := by
  obtain ⟨l⟩ := nm
  rfl

/-- C2 : a value exposing a `__name__` attribute (class, function, enum
member) always normalizes to the string form of that identity name,
whatever the snapshot, source text and key are; since such a name does not
begin with a brace, the result is never a binding-expression string built
from a snapshot entry. -/
theorem name_identity_precedence (locals : List (String × PyValue))
    (codeArgs : List (String × String)) (key : String) (value : PyValue)
    (n : String) (hn : value.dundername = some n) :
    parseProperty locals codeArgs key value = PropResult.pstr n ∧
      (n.data.head? ≠ some '{' → ∀ nm bv, (nm, bv) ∈ locals →
        parseProperty locals codeArgs key value ≠ PropResult.pstr ("\x7b" ++ nm ++ "\x7d")) := by
  have h1 : parseProperty locals codeArgs key value = PropResult.pstr n := by
    unfold parseProperty
    rw [hn]
  refine ⟨h1, fun hbrace nm bv _ hcontra => ?_⟩
  rw [h1] at hcontra
  have : n = "\x7b" ++ nm ++ "\x7d" := by injection hcontra
  rw [this, binding_string_head nm] at hbrace
  exact hbrace rfl

/-- C2 witness: a class object `C` (identity name "C", `oid` 3) bound to
local `x` and passed as `kind=x` normalizes to "C", not to "{x}". -/
theorem name_identity_precedence_witness :
    parseProperty [("x", ⟨3, PyKind.pother, some "C", "<class C>"⟩)] [("kind", "x")]
        "kind" ⟨3, PyKind.pother, some "C", "<class C>"⟩ = PropResult.pstr "C" ∧
      parseProperty [("x", ⟨3, PyKind.pother, some "C", "<class C>"⟩)] [("kind", "x")]
        "kind" ⟨3, PyKind.pother, some "C", "<class C>"⟩ ≠ PropResult.pstr ("\x7b" ++ "x" ++ "\x7d") := by
  have h := name_identity_precedence [("x", ⟨3, PyKind.pother, some "C", "<class C>"⟩)]
    [("kind", "x")] "kind" ⟨3, PyKind.pother, some "C", "<class C>"⟩ "C" rfl
  exact ⟨h.1, h.2 (by decide) "x" ⟨3, PyKind.pother, some "C", "<class C>"⟩ (by decide)⟩

/-! ### Lemmas about indexed-key normalization -/

/-- Declarative form of `__RE_INDEXED_PROPERTY` matching: the key splits as a
newline-free prefix, a double underscore, and a nonempty trailing word token,
optionally followed by one final newline (which `$` tolerates). -/
def keyPattern (key : String) : Prop :=
  ∃ nm tok : List Char,
    (key.data = nm ++ '_' :: '_' :: tok ∨ key.data = nm ++ '_' :: '_' :: (tok ++ ['\n']))
      ∧ tok ≠ [] ∧ (∀ c ∈ tok, isWordChar c) ∧ ∀ c ∈ nm, c ≠ '\n'

lemma tokenOf_sound {tail tok : List Char} (h : tokenOf tail = some tok) :
    (tail = tok ∨ tail = tok ++ ['\n']) ∧ tok ≠ [] ∧ ∀ c ∈ tok, isWordChar c := by
  simp only [tokenOf] at h
  by_cases hl : tail.getLast? = some '\n'
  · rw [if_pos hl] at h
    by_cases he : tail.dropLast.isEmpty
    · rw [if_pos he] at h; exact absurd h (by simp)
    · rw [if_neg he] at h
      by_cases hw : tail.dropLast.all isWordChar
      · rw [if_pos hw] at h
        injection h with h3
        subst h3
        have hne : tail ≠ [] := by
          intro hnil
          rw [hnil] at hl
          simp at hl
        have hlast : tail.getLast hne = '\n' := by
          have h5 := List.getLast?_eq_getLast tail hne
          rw [hl] at h5
          injection h5 with h6
          exact h6.symm
        refine ⟨Or.inr ?_, by simpa using he, fun c hc => List.all_eq_true.mp hw c hc⟩
        conv_lhs => rw [← List.dropLast_append_getLast hne]
        rw [hlast]
      · rw [if_neg hw] at h; exact absurd h (by simp)
  · rw [if_neg hl] at h
    by_cases he : tail.isEmpty
    · rw [if_pos he] at h; exact absurd h (by simp)
    · rw [if_neg he] at h
      by_cases hw : tail.all isWordChar
      · rw [if_pos hw] at h
        injection h with h3
        subst h3
        exact ⟨Or.inl rfl, by simpa using he, fun c hc => List.all_eq_true.mp hw c hc⟩
      · rw [if_neg hw] at h; exact absurd h (by simp)

lemma tokenOf_word {tok : List Char} (h1 : tok ≠ []) (h2 : ∀ c ∈ tok, isWordChar c) :
    tokenOf tok = some tok := by
  have hl : tok.getLast? ≠ some '\n' := by
    intro hcon
    have hmem : '\n' ∈ tok := List.mem_of_mem_getLast? hcon
    have := h2 '\n' hmem
    simp [isWordChar] at this
  unfold tokenOf
  simp only [if_neg hl]
  rw [if_neg (by simpa using h1), if_pos (List.all_eq_true.mpr (fun c hc => by
    simpa using h2 c hc))]

lemma tokenOf_word_newline {tok : List Char} (h1 : tok ≠ [])
    (h2 : ∀ c ∈ tok, isWordChar c) : tokenOf (tok ++ ['\n']) = some tok := by
  unfold tokenOf
  rw [List.getLast?_concat, if_pos rfl, List.dropLast_concat]
  rw [if_neg (by simpa using h1), if_pos (List.all_eq_true.mpr (fun c hc => by
    simpa using h2 c hc))]

/-- Unfolding of `scanSplit` at a double-underscore position. -/
lemma scanSplit_dd (pre tail : List Char) : scanSplit pre ('_' :: '_' :: tail) =
    (match tokenOf tail with
     | some tok =>
       if pre.all (fun x => x ≠ '\n') then some (pre.reverse, tok)
       else scanSplit ('_' :: pre) ('_' :: tail)
     | none => scanSplit ('_' :: pre) ('_' :: tail)) := rfl

lemma scanSplit_nil (pre : List Char) : scanSplit pre [] = none := rfl

lemma scanSplit_dd_some (pre tail tok0 : List Char) (htk : tokenOf tail = some tok0) :
    scanSplit pre ('_' :: '_' :: tail) =
      if pre.all (fun x => x ≠ '\n') then some (pre.reverse, tok0)
      else scanSplit ('_' :: pre) ('_' :: tail) := by
  rw [scanSplit_dd, htk]

lemma scanSplit_dd_none (pre tail : List Char) (htk : tokenOf tail = none) :
    scanSplit pre ('_' :: '_' :: tail) = scanSplit ('_' :: pre) ('_' :: tail) := by
  rw [scanSplit_dd, htk]

/-- Unfolding of `scanSplit` at a position where the indexed pattern does not
start. -/
lemma scanSplit_skip (pre : List Char) (c : Char) (cs : List Char)
    (hnc : ∀ tail : List Char, c = '_' → cs = '_' :: tail → False) :
    scanSplit pre (c :: cs) = scanSplit (c :: pre) cs := by
  rw [scanSplit.eq_def]
  split
  · rename_i habs
    exact absurd habs (by simp)
  · rename_i c2 cs2 heq
    injection heq with h1 h2
    subst h1; subst h2
    split
    · rename_i tail
      exact (hnc tail rfl rfl).elim
    · rfl

lemma scanSplit_sound (pre rest : List Char) : ∀ nm tok : List Char,
    scanSplit pre rest = some (nm, tok) →
      ∃ tail, pre.reverse ++ rest = nm ++ '_' :: '_' :: tail ∧ tokenOf tail = some tok ∧
        ∀ c ∈ nm, c ≠ '\n' := by
  induction pre, rest using scanSplit.induct with
  | case1 pre =>
    intro nm tok h
    rw [scanSplit_nil] at h
    exact absurd h (by simp)
  | case2 pre tail tok0 htk hall =>
    intro nm tok h
    rw [scanSplit_dd_some pre tail tok0 htk, if_pos hall] at h
    injection h with h1
    injection h1 with h2 h3
    subst h2; subst h3
    refine ⟨tail, rfl, htk, fun c hc => ?_⟩
    have := List.all_eq_true.mp hall c (List.mem_reverse.mp hc)
    simpa using this
  | case3 pre tail tok0 htk hall ih =>
    intro nm tok h
    rw [scanSplit_dd_some pre tail tok0 htk, if_neg hall] at h
    obtain ⟨tail2, heq, htk2, hnl⟩ := ih nm tok h
    refine ⟨tail2, ?_, htk2, hnl⟩
    rw [← heq]
    simp
  | case4 pre tail htk ih =>
    intro nm tok h
    rw [scanSplit_dd_none pre tail htk] at h
    obtain ⟨tail2, heq, htk2, hnl⟩ := ih nm tok h
    refine ⟨tail2, ?_, htk2, hnl⟩
    rw [← heq]
    simp
  | case5 pre c cs hnc ih =>
    intro nm tok h
    rw [scanSplit_skip pre c cs (fun tail h1 h2 => hnc tail h1 h2)] at h
    obtain ⟨tail2, heq, htk2, hnl⟩ := ih nm tok h
    refine ⟨tail2, ?_, htk2, hnl⟩
    rw [← heq]
    simp

lemma scanSplit_complete (pre rest : List Char) :
    (∀ c ∈ pre, c ≠ '\n') →
      ∀ nm tail : List Char, rest = nm ++ '_' :: '_' :: tail → (tokenOf tail).isSome →
        (∀ c ∈ nm, c ≠ '\n') → (scanSplit pre rest).isSome := by
  induction pre, rest using scanSplit.induct with
  | case1 pre =>
    intro _ nm tail heq _ _
    exact absurd heq (by simp)
  | case2 pre tail0 tok0 htk hall =>
    intro _ nm tail heq _ _
    rw [scanSplit_dd_some pre tail0 tok0 htk, if_pos hall]
    simp
  | case3 pre tail0 tok0 htk hall ih =>
    intro hpre _ _ _ _ _
    exact absurd (List.all_eq_true.mpr (fun c hc => by simpa using hpre c hc)) hall
  | case4 pre tail0 htk ih =>
    intro hpre nm tail heq hsome hnm
    rw [scanSplit_dd_none pre tail0 htk]
    cases nm with
    | nil =>
      simp only [List.nil_append] at heq
      injection heq with h1 h2
      injection h2 with h3 h4
      rw [h4] at htk
      rw [htk] at hsome
      exact absurd hsome (by simp)
    | cons c0 nm' =>
      injection heq with h1 h2
      refine ih (fun c hc => ?_) nm' tail h2 hsome (fun c hc => hnm c (List.mem_cons_of_mem c0 hc))
      rcases List.mem_cons.mp hc with hc1 | hc2
      · rw [hc1]; decide
      · exact hpre c hc2
  | case5 pre c cs hnc ih =>
    intro hpre nm tail heq hsome hnm
    rw [scanSplit_skip pre c cs hnc]
    cases nm with
    | nil =>
      simp only [List.nil_append] at heq
      injection heq with h1 h2
      exact (hnc tail h1 h2).elim
    | cons c0 nm' =>
      injection heq with h1 h2
      refine ih (fun x hx => ?_) nm' tail h2 hsome (fun x hx => hnm x (List.mem_cons_of_mem c0 hx))
      rcases List.mem_cons.mp hx with hx1 | hx2
      · rw [hx1, h1]
        exact hnm c0 (List.mem_cons_self c0 nm')
      · exact hpre x hx2

/-- C3 : a property key matching the indexed pattern `name__index` (newline
free prefix, double underscore, nonempty trailing word token, with `$`'s
tolerance for one final newline) is rewritten to `name[index]` for a valid
decomposition of the key; every key not matching the pattern passes through
unchanged. -/
theorem indexed_key_normalization (key : String) :
    (keyPattern key →
      ∃ nm tok : List Char,
        (key.data = nm ++ '_' :: '_' :: tok ∨ key.data = nm ++ '_' :: '_' :: (tok ++ ['\n']))
          ∧ tok ≠ [] ∧ (∀ c ∈ tok, isWordChar c) ∧ (∀ c ∈ nm, c ≠ '\n')
          ∧ parsePropertyKey key = String.mk nm ++ "[" ++ String.mk tok ++ "]")
      ∧ (¬ keyPattern key → parsePropertyKey key = key) := by
  constructor
  · intro hp
    obtain ⟨nm, tok, hdec, hne, hw, hnl⟩ := hp
    have hsome : (scanSplit [] key.data).isSome := by
      rcases hdec with h1 | h2
      · exact scanSplit_complete [] key.data (by simp) nm tok h1
          (by rw [tokenOf_word hne hw]; simp) hnl
      · exact scanSplit_complete [] key.data (by simp) nm (tok ++ ['\n']) h2
          (by rw [tokenOf_word_newline hne hw]; simp) hnl
    obtain ⟨pr, hsc⟩ := Option.isSome_iff_exists.mp hsome
    obtain ⟨nm2, tok2⟩ := pr
    obtain ⟨tail2, heq, htk2, hnl2⟩ := scanSplit_sound [] key.data nm2 tok2 hsc
    simp only [List.reverse_nil, List.nil_append] at heq
    obtain ⟨htail, hne2, hw2⟩ := tokenOf_sound htk2
    refine ⟨nm2, tok2, ?_, hne2, hw2, hnl2, ?_⟩
    · rcases htail with ht1 | ht2
      · left; rw [heq, ht1]
      · right; rw [heq, ht2]
    · unfold parsePropertyKey
      rw [hsc]
  · intro hnp
    cases hsc : scanSplit [] key.data with
    | none =>
      unfold parsePropertyKey
      rw [hsc]
    | some pr =>
      exfalso
      obtain ⟨nm2, tok2⟩ := pr
      obtain ⟨tail2, heq, htk2, hnl2⟩ := scanSplit_sound [] key.data nm2 tok2 hsc
      simp only [List.reverse_nil, List.nil_append] at heq
      obtain ⟨htail, hne2, hw2⟩ := tokenOf_sound htk2
      refine hnp ⟨nm2, tok2, ?_, hne2, hw2, hnl2⟩
      rcases htail with ht1 | ht2
      · left; rw [heq, ht1]
      · right; rw [heq, ht2]

/-- C3 witness: `color__0` matches the pattern and is rewritten to
`color[0]`; `color` does not match and passes through unchanged. -/
theorem indexed_key_normalization_witness :
    (keyPattern "color__0" ∧ parsePropertyKey "color__0" = "color[0]")
      ∧ (¬ keyPattern "color" ∧ parsePropertyKey "color" = "color") := by
  have hp : keyPattern "color__0" :=
    ⟨['c', 'o', 'l', 'o', 'r'], ['0'], Or.inl rfl, by decide, by decide, by decide⟩
  have hnp : ¬ keyPattern "color" := by
    rintro ⟨nm, tok, hdec, hne, hw, hnl⟩
    rcases hdec with h1 | h2
    · have : '_' ∈ "color".data := by
        rw [h1]
        exact List.mem_append.mpr (Or.inr (List.mem_cons_self _ _))
      simp at this
    · have : '_' ∈ "color".data := by
        rw [h2]
        exact List.mem_append.mpr (Or.inr (List.mem_cons_self _ _))
      simp at this
  have h1 := (indexed_key_normalization "color__0").1 hp
  exact ⟨⟨hp, by decide⟩, hnp, (indexed_key_normalization "color").2 hnp⟩

/-! ### Lemmas about the builder context and construction-time ownership -/

lemma addChild_stack (b : Builder) (c e : Nat) : (addChild b c e).stack = b.stack := by
  simp only [addChild]
  split <;> rfl

lemma addChild_nextId (b : Builder) (c e : Nat) : (addChild b c e).nextId = b.nextId := by
  simp only [addChild]
  split <;> rfl

lemma mem_addChild_self (b : Builder) (c e : Nat) : e ∈ (addChild b c e).childrenOf c := by
  simp only [addChild]
  by_cases h : e ∈ b.childrenOf c
  · rw [if_pos h]; exact h
  · rw [if_neg h]; simp

lemma mem_addChild_mono (b : Builder) (d x c e : Nat) (h : e ∈ b.childrenOf c) :
    e ∈ (addChild b d x).childrenOf c := by
  simp only [addChild]
  split
  · exact h
  · simp only
    by_cases hc : c = d
    · subst hc; simp [h]
    · simp [hc, h]

lemma mem_addChild_elim (b : Builder) (d x c e : Nat)
    (h : e ∈ (addChild b d x).childrenOf c) : e ∈ b.childrenOf c ∨ e = x := by
  simp only [addChild] at h
  split at h
  · exact Or.inl h
  · simp only at h
    by_cases hc : c = d
    · subst hc
      simp at h
      exact h
    · rw [if_neg hc] at h
      exact Or.inl h

lemma addChild_childrenOf_ne (b : Builder) (d x c : Nat) (h : c ≠ d) :
    (addChild b d x).childrenOf c = b.childrenOf c := by
  simp only [addChild]
  split
  · rfl
  · simp [h]

lemma construct_stack (b : Builder) : (construct b).1.stack = b.stack := by
  simp only [construct]
  cases hp : ({ b with nextId := b.nextId + 1 } : Builder).peek with
  | none => rfl
  | some p => simp only [hp, addChild_stack]

lemma construct_nextId (b : Builder) : (construct b).1.nextId = b.nextId + 1 := by
  simp only [construct]
  cases hp : ({ b with nextId := b.nextId + 1 } : Builder).peek with
  | none => rfl
  | some p => simp only [hp, addChild_nextId]

lemma run_cons (b : Builder) (op : BOp) (ops : List BOp) :
    run b (op :: ops) = run (applyOp b op) ops := rfl

lemma run_append (b : Builder) (l1 l2 : List BOp) :
    run b (l1 ++ l2) = run (run b l1) l2 := List.foldl_append _ _ _ _

lemma applyOp_enter_stack (b : Builder) (c : Nat) :
    (applyOp b (BOp.enter c)).stack = c :: b.stack := rfl

lemma applyOp_exit_stack (b : Builder) :
    (applyOp b BOp.exitScope).stack = b.stack.tail := rfl

lemma balanced_stack {ops : List BOp} (h : Balanced ops) :
    ∀ b : Builder, (run b ops).stack = b.stack := by
  induction h with
  | nil => intro b; rfl
  | cons_construct _ ih =>
    intro b
    rw [run_cons]
    rw [ih]
    exact construct_stack b
  | wrap _ _ ih1 ih2 =>
    intro b
    rw [run_append, run_cons, ih2, applyOp_exit_stack, run_cons, ih1, applyOp_enter_stack]
    rfl

lemma children_mono_applyOp (b : Builder) (op : BOp) (c e : Nat)
    (h : e ∈ b.childrenOf c) : e ∈ (applyOp b op).childrenOf c := by
  cases op with
  | enter d => exact h
  | exitScope => exact h
  | construct =>
    show e ∈ (construct b).1.childrenOf c
    simp only [construct]
    cases hp : ({ b with nextId := b.nextId + 1 } : Builder).peek with
    | none => exact h
    | some p =>
      simp only [hp]
      exact mem_addChild_mono _ p b.nextId c e h

lemma children_mono_run (ops : List BOp) : ∀ (b : Builder) (c e : Nat),
    e ∈ b.childrenOf c → e ∈ (run b ops).childrenOf c := by
  induction ops with
  | nil => intro b c e h; exact h
  | cons op rest ih =>
    intro b c e h
    rw [run_cons]
    exact ih _ c e (children_mono_applyOp b op c e h)

lemma nextId_le_applyOp (b : Builder) (op : BOp) : b.nextId ≤ (applyOp b op).nextId := by
  cases op with
  | enter d => exact le_refl _
  | exitScope => exact le_refl _
  | construct =>
    show b.nextId ≤ (construct b).1.nextId
    rw [construct_nextId]
    exact Nat.le_succ _

lemma nextId_le_run (ops : List BOp) : ∀ b : Builder, b.nextId ≤ (run b ops).nextId := by
  induction ops with
  | nil => intro b; exact le_refl _
  | cons op rest ih =>
    intro b
    rw [run_cons]
    exact le_trans (nextId_le_applyOp b op) (ih _)

lemma wf_applyOp {b : Builder} (op : BOp) (h : wf b) : wf (applyOp b op) := by
  cases op with
  | enter d => exact h
  | exitScope => exact h
  | construct =>
    show wf (construct b).1
    simp only [construct]
    cases hp : ({ b with nextId := b.nextId + 1 } : Builder).peek with
    | none => exact fun c e he => Nat.lt_succ_of_lt (h c e he)
    | some p =>
      simp only [hp]
      intro c e he
      rw [addChild_nextId]
      rcases mem_addChild_elim _ p b.nextId c e he with h1 | h2
      · exact Nat.lt_succ_of_lt (h c e h1)
      · rw [h2]; exact Nat.lt_succ_self _

lemma wf_run (ops : List BOp) : ∀ b : Builder, wf b → wf (run b ops) := by
  induction ops with
  | nil => intro b h; exact h
  | cons op rest ih =>
    intro b h
    rw [run_cons]
    exact ih _ (wf_applyOp op h)

lemma not_mem_children_run (ops : List BOp) : ∀ (b : Builder) (c e : Nat), wf b →
    e < b.nextId → e ∉ b.childrenOf c → e ∉ (run b ops).childrenOf c := by
  induction ops with
  | nil => intro b c e _ _ h; exact h
  | cons op rest ih =>
    intro b c e hwf hlt h
    rw [run_cons]
    refine ih _ c e (wf_applyOp op hwf) (lt_of_lt_of_le hlt (nextId_le_applyOp b op)) ?_
    cases op with
    | enter d => exact h
    | exitScope => exact h
    | construct =>
      show e ∉ (construct b).1.childrenOf c
      simp only [construct]
      cases hp : ({ b with nextId := b.nextId + 1 } : Builder).peek with
      | none => exact h
      | some p =>
        simp only [hp]
        intro hcon
        rcases mem_addChild_elim _ p b.nextId c e hcon with h1 | h2
        · exact h h1
        · exact absurd h2 (Nat.ne_of_lt hlt)

lemma stack_sub_run (ops : List BOp) : ∀ (b : Builder) (x : Nat),
    x ∈ (run b ops).stack → x ∈ b.stack ∨ BOp.enter x ∈ ops := by
  induction ops with
  | nil => intro b x h; exact Or.inl h
  | cons op rest ih =>
    intro b x h
    rw [run_cons] at h
    rcases ih _ x h with h1 | h2
    · cases op with
      | enter d =>
        rcases List.mem_cons.mp h1 with h3 | h4
        · exact Or.inr (by rw [h3]; exact List.mem_cons_self _ _)
        · exact Or.inl h4
      | exitScope => exact Or.inl (List.mem_of_mem_tail h1)
      | construct =>
        rw [show ((applyOp b BOp.construct).stack = b.stack) from construct_stack b] at h1
        exact Or.inl h1
    · exact Or.inr (List.mem_cons_of_mem _ h2)

lemma construct_peek_children (b : Builder) (c : Nat) (hp : b.peek = some c) :
    b.nextId ∈ (construct b).1.childrenOf c := by
  simp only [construct]
  have hp1 : ({ b with nextId := b.nextId + 1 } : Builder).peek = some c := hp
  simp only [hp1]
  exact mem_addChild_self _ c b.nextId

/-- C4 : entering a Container scope, running any balanced body inside it and
exiting restores the builder stack exactly (in particular its depth); every
element constructed inside the scope while that Container is topmost ends up
in its child list, and every element constructed after the scope exits (the
container not being open anywhere else and not re-entered) does not. -/
theorem scope_balance_and_ownership (b : Builder) (c : Nat) (inner after : List BOp)
    (hwf : wf b) (hbal : Balanced inner) (hcstack : c ∉ b.stack)
    (hafter : BOp.enter c ∉ after) :
    (run b (BOp.enter c :: inner ++ [BOp.exitScope])).stack = b.stack
      ∧ (∀ pre suf, inner = pre ++ BOp.construct :: suf →
          (run (b.push c) pre).peek = some c →
          (run (b.push c) pre).nextId ∈
            (run b (BOp.enter c :: inner ++ BOp.exitScope :: after)).childrenOf c)
      ∧ (∀ pre suf, after = pre ++ BOp.construct :: suf →
          (run (run b (BOp.enter c :: inner ++ [BOp.exitScope])) pre).nextId ∉
            (run b (BOp.enter c :: inner ++ BOp.exitScope :: after)).childrenOf c) := by
  have hscope : (run b (BOp.enter c :: inner ++ [BOp.exitScope])).stack = b.stack := by
    rw [show BOp.enter c :: inner ++ [BOp.exitScope]
        = BOp.enter c :: (inner ++ [BOp.exitScope]) from by simp]
    rw [run_cons, run_append, run_cons]
    show ((run (run (b.push c) inner) [BOp.exitScope] : Builder)).stack = b.stack
    show (run (b.push c) inner).stack.tail = b.stack
    rw [balanced_stack hbal]
    rfl
  have hfull : ∀ ops : List BOp,
      run b ((BOp.enter c :: inner ++ [BOp.exitScope]) ++ ops)
        = run b (BOp.enter c :: inner ++ BOp.exitScope :: ops) := by
    intro ops
    congr 1
    simp
  refine ⟨hscope, ?_, ?_⟩
  · intro pre suf hin hpeek
    subst hin
    have hsplit : run b (BOp.enter c :: (pre ++ BOp.construct :: suf) ++ BOp.exitScope :: after)
        = run (applyOp (run (b.push c) pre) BOp.construct) (suf ++ BOp.exitScope :: after) := by
      rw [show BOp.enter c :: (pre ++ BOp.construct :: suf) ++ BOp.exitScope :: after
          = BOp.enter c :: (pre ++ BOp.construct :: (suf ++ BOp.exitScope :: after)) from by simp]
      rw [run_cons, show (pre ++ BOp.construct :: (suf ++ BOp.exitScope :: after))
          = pre ++ (BOp.construct :: (suf ++ BOp.exitScope :: after)) from rfl]
      rw [run_append, run_cons]
      rfl
    rw [hsplit]
    refine children_mono_run _ _ c _ ?_
    exact construct_peek_children (run (b.push c) pre) c hpeek
  · intro pre suf haft
    subst haft
    set s1 := run b (BOp.enter c :: inner ++ [BOp.exitScope]) with hs1
    have hsplit : run b (BOp.enter c :: inner ++ BOp.exitScope :: (pre ++ BOp.construct :: suf))
        = run (applyOp (run s1 pre) BOp.construct) suf := by
      rw [← hfull (pre ++ BOp.construct :: suf), run_append, ← hs1, run_append, run_cons]
    rw [hsplit]
    set bq := run s1 pre with hbq
    have hwfq : wf bq := wf_run pre s1 (wf_run _ b hwf)
    have hqstack : c ∉ bq.stack := by
      intro hmem
      rcases stack_sub_run pre s1 c hmem with h1 | h2
      · rw [hscope] at h1
        exact hcstack h1
      · exact hafter (List.mem_append.mpr (Or.inl h2))
    have hnotyet : bq.nextId ∉ (applyOp bq BOp.construct).childrenOf c := by
      show bq.nextId ∉ (construct bq).1.childrenOf c
      simp only [construct]
      cases hp : ({ bq with nextId := bq.nextId + 1 } : Builder).peek with
      | none =>
        intro hmem
        exact absurd rfl (Nat.ne_of_lt (hwfq c bq.nextId hmem))
      | some p =>
        simp only [hp]
        have hp2 : bq.stack.head? = some p := hp
        have hps : p ∈ bq.stack := List.mem_of_mem_head? hp2
        have hpc : c ≠ p := fun heq => hqstack (heq ▸ hps)
        rw [addChild_childrenOf_ne _ p _ c hpc]
        intro hmem
        exact absurd rfl (Nat.ne_of_lt (hwfq c bq.nextId hmem))
    exact not_mem_children_run suf _ c bq.nextId (wf_applyOp BOp.construct hwfq)
      (by rw [show (applyOp bq BOp.construct).nextId = bq.nextId + 1 from construct_nextId bq]
          exact Nat.lt_succ_self _)
      hnotyet

/-- C4 witness: from an empty builder, `with container: construct()` followed
by a top-level `construct()` leaves the stack empty, makes element 0 a child
of the container and element 1 not. -/
theorem scope_balance_and_ownership_witness :
    (run ⟨[], fun _ => [], 0⟩ (BOp.enter 5 :: [BOp.construct] ++ [BOp.exitScope])).stack = []
      ∧ (0 : Nat) ∈ (run ⟨[], fun _ => [], 0⟩
          (BOp.enter 5 :: [BOp.construct] ++ BOp.exitScope :: [BOp.construct])).childrenOf 5
      ∧ (1 : Nat) ∉ (run ⟨[], fun _ => [], 0⟩
          (BOp.enter 5 :: [BOp.construct] ++ BOp.exitScope :: [BOp.construct])).childrenOf 5 := by
  have h := scope_balance_and_ownership ⟨[], fun _ => [], 0⟩ 5 [BOp.construct] [BOp.construct]
    (fun c e he => absurd he (List.not_mem_nil e))
    (Balanced.cons_construct Balanced.nil)
    (List.not_mem_nil 5)
    (by decide)
  exact ⟨h.1, h.2.1 [] [] rfl rfl, h.2.2 [] [] rfl⟩

lemma childrenOf_addChild (b : Builder) (c e : Nat) :
    (addChild b c e).childrenOf c =
      if e ∈ b.childrenOf c then b.childrenOf c else b.childrenOf c ++ [e] := by
  simp only [addChild]
  split
  · rfl
  · simp

lemma addChild_of_mem {b : Builder} {c e : Nat} (h : e ∈ b.childrenOf c) :
    addChild b c e = b := by
  simp only [addChild]
  rw [if_pos h]

/-- C8 : `container.add(a, b)` followed by `container.add(a)` leaves the
child list exactly `[a, b]`; `add` appends each element unless already
present by identity, is idempotent per element, and returns the container
itself. -/
theorem block_add_semantics (b : Builder) (c a e : Nat) (hne : a ≠ e)
    (h0 : b.childrenOf c = []) :
    ((blockAdd (blockAdd b c [a, e]).1 c [a]).1).childrenOf c = [a, e]
      ∧ (∀ (b2 : Builder) (x : Nat),
          (blockAdd (blockAdd b2 c [x]).1 c [x]).1 = (blockAdd b2 c [x]).1)
      ∧ ∀ (b2 : Builder) (es : List Nat), (blockAdd b2 c es).2 = c := by
  refine ⟨?_, ?_, fun b2 es => rfl⟩
  · have h1 : (addChild b c a).childrenOf c = [a] := by
      rw [childrenOf_addChild, h0]
      simp
    have h2 : (addChild (addChild b c a) c e).childrenOf c = [a, e] := by
      rw [childrenOf_addChild, h1]
      simp [Ne.symm hne]
    show (addChild (addChild (addChild b c a) c e) c a).childrenOf c = [a, e]
    rw [childrenOf_addChild, h2]
    simp
  · intro b2 x
    show addChild (addChild b2 c x) c x = addChild b2 c x
    exact addChild_of_mem (mem_addChild_self b2 c x)

/-- C8 witness: a fresh container 5 and elements 1, 2. -/
theorem block_add_semantics_witness :
    ((blockAdd (blockAdd ⟨[], fun _ => [], 3⟩ 5 [1, 2]).1 5 [1]).1).childrenOf 5 = [1, 2]
      ∧ (blockAdd (⟨[], fun _ => [], 3⟩ : Builder) 5 [1, 2]).2 = 5 := by
  have h := block_add_semantics ⟨[], fun _ => [], 3⟩ 5 1 2 (by decide) rfl
  exact ⟨h.1, h.2.2 ⟨[], fun _ => [], 3⟩ [1, 2]⟩

/-- Construction of an `html` element under the builder context: `__new__`
allocates the object and registers it with the topmost open container, and
only then does `__init__` run, raising when no positional argument was
given.  The second component is the outcome seen by the caller. -/
def htmlConstructFull (b : Builder) (args : List (Option String))
    (props : List (String × PropResult)) : Builder × Except String Nat :=
  let st := construct b
  match htmlInit args props with
  | Except.error msg => (st.1, Except.error msg)
  | Except.ok _ => (st.1, Except.ok st.2)

/-- C10 : an `html` constructed with no positional argument inside an open
Container scope raises its missing-tag error, yet the freshly allocated
element is already registered in the open Container's child list — failed
construction is not atomic with respect to the parent's state. -/
theorem construction_not_atomic (b : Builder) (c : Nat) (hpeek : b.peek = some c) :
    ∃ msg, (htmlConstructFull b [] []).2 = Except.error msg
      ∧ b.nextId ∈ (htmlConstructFull b [] []).1.childrenOf c := by
  refine ⟨"Missing html tag name.", rfl, ?_⟩
  show b.nextId ∈ (construct b).1.childrenOf c
  exact construct_peek_children b c hpeek

/-- C10 witness: an open container 4 and an empty-args `html` construction. -/
theorem construction_not_atomic_witness :
    ∃ msg, (htmlConstructFull ⟨[4], fun _ => [], 9⟩ [] []).2 = Except.error msg
      ∧ (9 : Nat) ∈ (htmlConstructFull ⟨[4], fun _ => [], 9⟩ [] []).1.childrenOf 4 :=
  construction_not_atomic ⟨[4], fun _ => [], 9⟩ 4 rfl

/-- C9 : constructing a RawMarkup (`html`) element with no positional
argument at all raises the missing-tag initialization error to the caller,
never silently defaulting; a present but empty or null first argument is
accepted and yields a text node (`elementName = none`). -/
theorem html_missing_tag_error (args : List (Option String))
    (props : List (String × PropResult)) :
    (args = [] → htmlInit args props = Except.error "Missing html tag name.")
      ∧ (∀ a0 rest, args = a0 :: rest →
          ∃ el, htmlInit args props = Except.ok el
            ∧ (pyTruthy a0 = false → el.elementName = none)
            ∧ (pyTruthy a0 = true → el.elementName = a0)) := by
  constructor
  · intro h
    subst h
    rfl
  · intro a0 rest h
    subst h
    refine ⟨_, rfl, ?_, ?_⟩
    · intro hf
      show (if pyTruthy a0 then a0 else none) = none
      rw [hf]
      rfl
    · intro ht
      show (if pyTruthy a0 then a0 else none) = a0
      rw [ht]
      rfl

/-- C9 witness: no argument errors; `None` and `""` first arguments are
accepted as text nodes. -/
theorem html_missing_tag_error_witness :
    htmlInit [] [] = Except.error "Missing html tag name."
      ∧ (∃ el, htmlInit [some ""] [] = Except.ok el ∧ el.elementName = none)
      ∧ (∃ el, htmlInit [none, some "text"] [] = Except.ok el ∧ el.elementName = none) := by
  refine ⟨(html_missing_tag_error [] []).1 rfl, ?_, ?_⟩
  · obtain ⟨el, h1, h2, _⟩ := (html_missing_tag_error [some ""] []).2 (some "") [] rfl
    exact ⟨el, h1, h2 rfl⟩
  · obtain ⟨el, h1, h2, _⟩ :=
      (html_missing_tag_error [none, some "text"] []).2 none [some "text"] rfl
    exact ⟨el, h1, h2 rfl⟩

/-- C6 : RawMarkup rendering: a truthy tag name yields
`<tag attrs>content + children</tag>` with the attributes emitted verbatim
as space-separated `key="str(value)"` pairs (empty attribute string when
there are no properties), the children joined by newlines; an absent tag
name yields the literal content only, whatever children exist. -/
theorem html_render_rule (el : HtmlEl) (children : List String) :
    (∀ n, el.elementName = some n → n ≠ "" →
      htmlRender el children =
        "<" ++ n
          ++ (if el.props.isEmpty then ""
              else " " ++ String.intercalate " "
                (el.props.map (fun p => p.1 ++ "=\x22" ++ strOfProp p.2 ++ "\x22")))
          ++ ">" ++ el.content ++ String.intercalate "\n" children ++ "</" ++ n ++ ">")
      ∧ (el.elementName = none ∨ el.elementName = some "" →
          htmlRender el children = el.content) := by
  constructor
  · intro n hn hne
    unfold htmlRender
    rw [hn]
    simp only [if_pos hne]
    rfl
  · intro hn
    rcases hn with hn | hn
    · unfold htmlRender
      rw [hn]
    · unfold htmlRender
      rw [hn]
      simp

/-- C6 witness: `html("h1", "Title")` renders exactly `<h1>Title</h1>`, and a
tag-less `html(None, "text")` with a child renders exactly `text`. -/
theorem html_render_rule_witness :
    htmlRender ⟨some "h1", "Title", []⟩ [] = "<h1>Title</h1>"
      ∧ htmlRender ⟨none, "text", []⟩ ["<b>x</b>"] = "text" := by
  have h1 := (html_render_rule ⟨some "h1", "Title", []⟩ []).1 "h1" rfl (by decide)
  have h2 := (html_render_rule ⟨none, "text", []⟩ ["<b>x</b>"]).2 (Or.inl rfl)
  exact ⟨h1.trans (by decide), h2⟩

/-- C7 : Leaf rendering: when the factory's opening fragment contains
`<tagName` but no `</tagName`, the missing close is synthesized inside the
wrapping div, `<div>` + fragment + `</tagName></div>`; in every other case
the fragment is wrapped as `<div>` + fragment + `</div>`. -/
theorem control_render_wrap (fragment tagName : String) :
    (strContains fragment ("<" ++ tagName) = true →
      strContains fragment ("</" ++ tagName) = false →
      controlRender fragment tagName = "<div>" ++ fragment ++ "</" ++ tagName ++ "></div>")
      ∧ (¬(strContains fragment ("<" ++ tagName) = true
            ∧ strContains fragment ("</" ++ tagName) = false) →
          controlRender fragment tagName = "<div>" ++ fragment ++ "</div>") := by
  constructor
  · intro h1 h2
    unfold controlRender
    rw [if_pos (by rw [h1, h2]; rfl)]
  · intro h
    unfold controlRender
    rw [if_neg ?_]
    intro hcon
    rcases Bool.and_eq_true_iff.mp hcon with ⟨hc1, hc2⟩
    exact h ⟨hc1, by
      cases hcc : strContains fragment ("</" ++ tagName) with
      | false => rfl
      | true => rw [hcc] at hc2; exact absurd hc2 (by decide)⟩

/-- C7 witness: an unmatched `<input ...>` fragment gets a synthesized close;
a fully closed `<p>hello</p>` fragment is wrapped only in a div. -/
theorem control_render_wrap_witness :
    controlRender "<input type=\x22text\x22>" "input"
        = "<div><input type=\x22text\x22></input></div>"
      ∧ controlRender "<p>hello</p>" "p" = "<div><p>hello</p></div>" := by
  have h1 := (control_render_wrap "<input type=\x22text\x22>" "input").1 (by decide) (by decide)
  have h2 := (control_render_wrap "<p>hello</p>" "p").2 (by decide)
  exact ⟨h1.trans (by decide), h2.trans (by decide)⟩

/-! ### Lemmas about `update` -/

lemma dictGet_set_self (d : List (String × α)) (k : String) (v : α) :
    dictGet (dictSet d k v) k = some v := by
  induction d with
  | nil => simp [dictSet, dictGet]
  | cons p ps ih =>
    by_cases h : p.1 = k
    · simp [dictSet, dictGet, h]
    · simp [dictSet, dictGet, h, ih]

lemma dictGet_set_ne (d : List (String × α)) (a : String) (v : α) (k : String)
    (h : k ≠ a) : dictGet (dictSet d a v) k = dictGet d k := by
  induction d with
  | nil => simp [dictSet, dictGet, Ne.symm h]
  | cons p ps ih =>
    by_cases h2 : p.1 = a
    · simp [dictSet, dictGet, h2, Ne.symm h, h]
    · simp [dictSet, dictGet, h2, ih]

lemma dictGet_del_ne (d : List (String × α)) (a k : String) (h : k ≠ a) :
    dictGet (dictDel d a) k = dictGet d k := by
  induction d with
  | nil => rfl
  | cons p ps ih =>
    by_cases h2 : p.1 = a
    · simp [dictDel, dictGet, h2, Ne.symm h]
    · simp [dictDel, dictGet, h2, ih]

lemma dictGet_some_mem {d : List (String × α)} {k : String} {v : α}
    (h : dictGet d k = some v) : k ∈ dictKeys d := by
  induction d with
  | nil => exact absurd h (by simp [dictGet])
  | cons p ps ih =>
    by_cases h2 : p.1 = k
    · simp [dictKeys, h2]
    · rw [dictGet, if_neg h2] at h
      exact List.mem_cons_of_mem _ (ih h)

lemma parseOne_get_other (l : List (String × PyValue)) (ca : List (String × String))
    (d : PDict) (k0 k : String) (h1 : k ≠ k0) (h2 : k ≠ parsePropertyKey k0) :
    dictGet (parseOne l ca d k0) k = dictGet d k := by
  unfold parseOne
  cases hg : dictGet d k0 with
  | none => rfl
  | some v =>
    simp only
    rw [dictGet_set_ne _ _ _ _ h2]
    split
    · rw [dictGet_del_ne _ _ _ h1]
    · rfl

lemma parseProperties_get_other (l : List (String × PyValue)) (ca : List (String × String))
    (keys : List String) : ∀ (d : PDict) (k : String),
    (∀ k0 ∈ keys, k ≠ k0 ∧ k ≠ parsePropertyKey k0) →
    dictGet (parseProperties l ca d keys) k = dictGet d k := by
  induction keys with
  | nil => intro d k _; rfl
  | cons k0 rest ih =>
    intro d k h
    show dictGet (parseProperties l ca (parseOne l ca d k0) rest) k = dictGet d k
    rw [ih _ k (fun k1 hk1 => h k1 (List.mem_cons_of_mem k0 hk1))]
    exact parseOne_get_other l ca d k0 k (h k0 (List.mem_cons_self k0 rest)).1
      (h k0 (List.mem_cons_self k0 rest)).2

lemma foldMerge_get_other (kd : PDict) : ∀ (D : PDict) (k : String),
    k ∉ dictKeys kd →
    dictGet (kd.foldl (fun dd p => dictSet dd p.1 p.2) D) k = dictGet D k := by
  induction kd with
  | nil => intro D k _; rfl
  | cons p rest ih =>
    intro D k h
    show dictGet (rest.foldl (fun dd p => dictSet dd p.1 p.2) (dictSet D p.1 p.2)) k
      = dictGet D k
    rw [ih _ k (fun hm => h (List.mem_cons_of_mem _ hm))]
    exact dictGet_set_ne D p.1 p.2 k (fun he => h (by rw [he]; exact List.mem_cons_self _ _))

lemma foldMerge_get (kd : PDict) : ∀ (D : PDict) (k : String) (v : PropResult),
    dictGet kd k = some v → (dictKeys kd).Nodup →
    dictGet (kd.foldl (fun dd p => dictSet dd p.1 p.2) D) k = some v := by
  induction kd with
  | nil => intro D k v h _; exact absurd h (by simp [dictGet])
  | cons p rest ih =>
    intro D k v h hnd
    show dictGet (rest.foldl (fun dd p => dictSet dd p.1 p.2) (dictSet D p.1 p.2)) k = some v
    by_cases h2 : p.1 = k
    · rw [dictGet, if_pos h2] at h
      injection h with h3
      subst h3
      have hk : k ∉ dictKeys rest := by
        rw [← h2]
        exact (List.nodup_cons.mp hnd).1
      rw [foldMerge_get_other rest _ k hk, ← h2, dictGet_set_self]
    · rw [dictGet, if_neg h2] at h
      exact ih _ k v h (List.nodup_cons.mp hnd).2

lemma dictKeys_dictSet_sub (d : List (String × α)) (k : String) (v : α) :
    ∀ x ∈ dictKeys (dictSet d k v), x = k ∨ x ∈ dictKeys d := by
  induction d with
  | nil => intro x hx; simp [dictSet, dictKeys] at hx; exact Or.inl hx
  | cons p ps ih =>
    intro x hx
    by_cases h : p.1 = k
    · simp only [dictSet, if_pos h, dictKeys, List.map_cons, List.mem_cons] at hx
      rcases hx with h1 | h2
      · exact Or.inl h1
      · exact Or.inr (List.mem_cons_of_mem _ h2)
    · simp only [dictSet, if_neg h, dictKeys, List.map_cons, List.mem_cons] at hx
      rcases hx with h1 | h2
      · exact Or.inr (by rw [h1]; exact List.mem_cons_self _ _)
      · rcases ih x h2 with h3 | h4
        · exact Or.inl h3
        · exact Or.inr (List.mem_cons_of_mem _ h4)

lemma nodup_dictSet (d : List (String × α)) (k : String) (v : α)
    (h : (dictKeys d).Nodup) : (dictKeys (dictSet d k v)).Nodup := by
  induction d with
  | nil => simp [dictSet, dictKeys]
  | cons p ps ih =>
    rw [dictKeys, List.map_cons] at h
    obtain ⟨h1, h2⟩ := List.nodup_cons.mp h
    by_cases hp : p.1 = k
    · simp only [dictSet, if_pos hp, dictKeys, List.map_cons]
      exact List.nodup_cons.mpr ⟨by rw [← hp]; exact h1, h2⟩
    · simp only [dictSet, if_neg hp, dictKeys, List.map_cons]
      refine List.nodup_cons.mpr ⟨?_, ih h2⟩
      intro hmem
      rcases dictKeys_dictSet_sub ps k v p.1 hmem with h3 | h4
      · exact hp h3
      · exact h1 h4

lemma nodup_foldSet (kwargs : List (String × PyValue)) :
    ∀ acc : PDict, (dictKeys acc).Nodup →
    (dictKeys (kwargs.foldl (fun d p => dictSet d p.1 (PropResult.pval p.2)) acc)).Nodup := by
  induction kwargs with
  | nil => intro acc h; exact h
  | cons p rest ih =>
    intro acc h
    exact ih _ (nodup_dictSet acc p.1 _ h)

lemma nodup_updateDict (d : String) (args : List PyValue)
    (kwargs : List (String × PyValue)) : (dictKeys (updateDict d args kwargs)).Nodup := by
  unfold updateDict mkRawDict
  cases args with
  | nil => exact nodup_foldSet kwargs [] (by simp [dictKeys])
  | cons a rest =>
    exact nodup_dictSet _ d _ (nodup_foldSet kwargs [] (by simp [dictKeys]))

lemma parseProperties_simple (l : List (String × PyValue)) (ca : List (String × String))
    (keys : List String) : keys.Nodup → (∀ k ∈ keys, parsePropertyKey k = k) →
    ∀ (d : PDict) (k : String) (v : PropResult), k ∈ keys → dictGet d k = some v →
    dictGet (parseProperties l ca d keys) k = some (parseOne.parseEntry l ca k v) := by
  induction keys with
  | nil => intro _ _ d k v hk _; exact absurd hk (List.not_mem_nil k)
  | cons k0 rest ih =>
    intro hnd hsimple d k v hk hg
    obtain ⟨hnd1, hnd2⟩ := List.nodup_cons.mp hnd
    show dictGet (parseProperties l ca (parseOne l ca d k0) rest) k
      = some (parseOne.parseEntry l ca k v)
    rcases List.mem_cons.mp hk with hk1 | hk2
    · subst hk1
      have hkey : parsePropertyKey k = k := hsimple k (List.mem_cons_self k rest)
      have hstep : dictGet (parseOne l ca d k) k = some (parseOne.parseEntry l ca k v) := by
        unfold parseOne
        rw [hg]
        simp only [hkey]
        rw [if_neg (by simp), dictGet_set_self]
      rw [parseProperties_get_other l ca rest _ k
        (fun k1 hk1 => ⟨fun he => hnd1 (he ▸ hk1),
          fun he => hnd1 ((he.trans (hsimple k1 (List.mem_cons_of_mem k hk1))) ▸ hk1)⟩)]
      exact hstep
    · have hne : k ≠ k0 := fun he => hnd1 (he ▸ hk2)
      refine ih hnd2 (fun k1 h1 => hsimple k1 (List.mem_cons_of_mem k0 h1)) _ k v hk2 ?_
      rw [parseOne_get_other l ca d k0 k hne
        (fun he => hne (he.trans (hsimple k0 (List.mem_cons_self k0 rest))))]
      exact hg

/-- C5 counterexample: an element constructed with no visible locals, then
updated with `label=y` at a call site whose locals bind `y` to object `V`.
Under the claim (`elementUpdateClaimed`, which recovers the lexical bindings
from the update call site) the property becomes the binding string `{y}`;
the code (`elementUpdate`, which reuses the construction-time snapshot)
stringifies `V` instead.  The claim is false at this input. -/
theorem update_locals_counterexample :
    dictGet (elementUpdate (elementInit [] [] "" [] []) [("label", "y")] "" []
        [("label", ⟨7, PyKind.pother, none, "V"⟩)]).props "label"
      = some (PropResult.pstr "V")
    ∧ dictGet (elementUpdateClaimed (elementInit [] [] "" [] [])
        [("y", ⟨7, PyKind.pother, none, "V"⟩)] [("label", "y")] "" []
        [("label", ⟨7, PyKind.pother, none, "V"⟩)]).props "label"
      = some (PropResult.pstr "{y}")
    ∧ PropResult.pstr "V" ≠ PropResult.pstr "{y}" := by
  exact ⟨by decide, by decide, by decide⟩

/-- C5 (amended) : `update` merges the updated properties into the existing
map with the same normalization as construction, recovering the caller
source text from the *update* call site but reusing the lexical snapshot
captured at construction (the snapshot is never refreshed); it re-runs
normalization only over the updated keys, leaving every other stored
property unchanged.  Stated for updates whose keys are not in indexed form. -/
theorem update_merge_amended (st : ElementState) (ca : List (String × String))
    (d : String) (args : List PyValue) (kwargs : List (String × PyValue))
    (hsimple : ∀ k ∈ dictKeys (updateDict d args kwargs), parsePropertyKey k = k) :
    (elementUpdate st ca d args kwargs).locals = st.locals
      ∧ (∀ k, k ∉ dictKeys (updateDict d args kwargs) →
          dictGet (elementUpdate st ca d args kwargs).props k = dictGet st.props k)
      ∧ (∀ k v, dictGet (updateDict d args kwargs) k = some v →
          dictGet (elementUpdate st ca d args kwargs).props k
            = some (parseOne.parseEntry st.locals ca k v)) := by
  refine ⟨rfl, ?_, ?_⟩
  · intro k hk
    show dictGet (parseProperties st.locals ca
      ((updateDict d args kwargs).foldl (fun dd p => dictSet dd p.1 p.2) st.props)
      (dictKeys (updateDict d args kwargs))) k = dictGet st.props k
    rw [parseProperties_get_other st.locals ca _ _ k
      (fun k0 hk0 => ⟨fun he => hk (he ▸ hk0), fun he => hk ((he.trans (hsimple k0 hk0)) ▸ hk0)⟩)]
    exact foldMerge_get_other _ st.props k hk
  · intro k v hv
    have hk : k ∈ dictKeys (updateDict d args kwargs) := dictGet_some_mem hv
    show dictGet (parseProperties st.locals ca
      ((updateDict d args kwargs).foldl (fun dd p => dictSet dd p.1 p.2) st.props)
      (dictKeys (updateDict d args kwargs))) k = some (parseOne.parseEntry st.locals ca k v)
    refine parseProperties_simple st.locals ca _ (nodup_updateDict d args kwargs) hsimple _ k v hk ?_
    exact foldMerge_get _ st.props k v hv (nodup_updateDict d args kwargs)

/-- C5 (amended) witness: an element constructed where local `x` holds `V`;
a later `update(label=V)` whose source text is `x` produces the binding
`{x}` from the construction-time snapshot with the update-site source text,
and an untouched property key keeps its stored value. -/
theorem update_merge_amended_witness :
    (elementUpdate (elementInit [("x", ⟨7, PyKind.pother, none, "V"⟩)] [] "" [] [])
        [("label", "x")] "" [] [("label", ⟨7, PyKind.pother, none, "V"⟩)]).locals
      = [("x", ⟨7, PyKind.pother, none, "V"⟩)]
    ∧ dictGet (elementUpdate (elementInit [("x", ⟨7, PyKind.pother, none, "V"⟩)] [] "" [] [])
        [("label", "x")] "" [] [("label", ⟨7, PyKind.pother, none, "V"⟩)]).props "label"
      = some (PropResult.pstr "{x}") := by
  have h := update_merge_amended
    (elementInit [("x", ⟨7, PyKind.pother, none, "V"⟩)] [] "" [] [])
    [("label", "x")] "" [] [("label", ⟨7, PyKind.pother, none, "V"⟩)]
    (by decide)
  refine ⟨h.1.trans (by decide), ?_⟩
  exact (h.2.2 "label" (PropResult.pval ⟨7, PyKind.pother, none, "V"⟩) (by decide)).trans
    (by decide)

end TaipyBuilder
